import Mathlib

/-!
Verification of the gosible inventory / discovery / history logic.

The Go source is shallowly embedded: each Go function that the claims
mention is translated into an executable Lean definition over `String`
and `List`.  File-system and process effects are made explicit
(the file system is a list of existing path names, enumerator outputs
are `Option String` values where `none` models a failed invocation).

String helpers below model the Go standard-library calls used by the
source (`strings.TrimSpace`, `strings.Split`, `strings.Fields`,
`strconv.Atoi`, `fmt.Sprintf("%d", _)`); they are written structurally
over the character list so that concrete inputs evaluate by `decide`.
-/

namespace Gosible

/-- Models `strings.Split(s, sep)` for a one-character separator:
split at every occurrence of the separator, keeping empty pieces. -/
def splitByP (p : Char → Bool) : List Char → List (List Char)
  | [] => [[]]
  | c :: rest =>
    let r := splitByP p rest
    if p c then [] :: r
    else
      match r with
      | [] => [[c]]
      | h :: t => (c :: h) :: t

/-- `strings.Split(s, String(sep))` for a single separator character. -/
def splitOnChar (sep : Char) (s : String) : List String :=
  (splitByP (fun c => c == sep) s.data).map String.mk

/-- Models `strings.TrimSpace` (drop whitespace from both ends). -/
def trimS (s : String) : String :=
  String.mk (((s.data.dropWhile Char.isWhitespace).reverse.dropWhile
    Char.isWhitespace).reverse)

/-- Models `strings.Fields`: the maximal non-empty runs between
whitespace characters. -/
def fieldsS (s : String) : List String :=
  ((splitByP Char.isWhitespace s.data).filter (fun l => !l.isEmpty)).map String.mk

/-- Models `strconv.Atoi`: optional sign, at least one decimal digit,
whole string consumed, value within the 64-bit `int` range. -/
def atoi? (s : String) : Option Int :=
  match s.data with
  | [] => none
  | c :: cs =>
    let signed : Bool × List Char :=
      if c = '-' then (true, cs)
      else if c = '+' then (false, cs)
      else (false, c :: cs)
    match signed with
    | (neg, digits) =>
      if digits.isEmpty then none
      else if digits.all (fun d => d.isDigit) then
        let n : Nat := digits.foldl (fun acc d => acc * 10 + (d.toNat - 48)) 0
        if neg then
          if n ≤ 9223372036854775808 then some (-(n : Int)) else none
        else
          if n ≤ 9223372036854775807 then some ((n : Int)) else none
      else none

/-- Models `filepath.Join(dir, name)` for a directory path with no
trailing separator (the shape used throughout the source). -/
def joinPath (dir name : String) : String := dir ++ "/" ++ name

/-- `HostConfig` from `internal/inventory`: per-host settings. -/
structure HostConfig where
  host : String
  group : String
  sshUser : String
  sshKeyFile : String
  sshPort : String
  become : Bool
deriving DecidableEq, Repr

/-- One step of the partition loop of `CreateInventoryFile`: append the
host either to the `ungroupedHosts` slice (empty group) or to the
`groups` map entry keyed by its group. -/
def partitionStep (acc : List HostConfig × (String → List HostConfig))
    (h : HostConfig) : List HostConfig × (String → List HostConfig) :=
  if h.group = "" then (acc.1 ++ [h], acc.2)
  else (acc.1, fun g => if g = h.group then acc.2 g ++ [h] else acc.2 g)

/-- The partition loop of `CreateInventoryFile` over the whole input. -/
def partitionHosts (hosts : List HostConfig) :
    List HostConfig × (String → List HostConfig) :=
  hosts.foldl partitionStep ([], fun _ => [])

/-- The `ungroupedHosts` slice built by `CreateInventoryFile`. -/
def ungroupedHosts (hosts : List HostConfig) : List HostConfig :=
  (partitionHosts hosts).1

/-- The contents of the `groups` map of `CreateInventoryFile` at key
`g` (the ordered hosts carrying group `g`). -/
def childHosts (hosts : List HostConfig) (g : String) : List HostConfig :=
  (partitionHosts hosts).2 g

/-- The attribute lines `CreateInventoryFile` emits for one host, as
key/value pairs in emission order: `ansible_user` and
`ansible_ssh_private_key_file` always, `ansible_port` only when
`sshPort` is non-empty, `ansible_become: true` only when `become`. -/
def hostAttrs (h : HostConfig) : List (String × String) :=
  [("ansible_user", h.sshUser),
   ("ansible_ssh_private_key_file", h.sshKeyFile)]
  ++ (if h.sshPort ≠ "" then [("ansible_port", h.sshPort)] else [])
  ++ (if h.become then [("ansible_become", "true")] else [])

/-- Rendering of one attribute line at indentation `ai`. -/
def attrLine (ai : String) (kv : String × String) : String :=
  ai ++ kv.1 ++ ": " ++ kv.2 ++ "\n"

/-- The block `CreateInventoryFile` emits for one host: the host key
line at indentation `hi` followed by the attribute lines at
indentation `ai` (4/6 spaces for ungrouped hosts, 8/10 for grouped). -/
def hostEntry (hi ai : String) (h : HostConfig) : String :=
  hi ++ h.host ++ ":\n" ++ String.join ((hostAttrs h).map (attrLine ai))

/-- First-occurrence deduplication, used to fix one iteration order for
the Go `groups` map (whose iteration order is unspecified). -/
def dedupFirst : List String → List String
  | [] => []
  | x :: xs => x :: (dedupFirst xs).filter (fun y => y != x)

/-- The distinct non-empty group labels of the input, in first
occurrence order: the keys of the `groups` map of
`CreateInventoryFile`. -/
def groupLabels (hosts : List HostConfig) : List String :=
  dedupFirst ((hosts.filter (fun h => !(h.group == ""))).map (fun h => h.group))

/-- The `children:` section body of the document: one block per group
label containing that group's hosts. -/
def groupSection (hosts : List HostConfig) : String :=
  String.join ((groupLabels hosts).map (fun g =>
    "    " ++ g ++ ":\n      hosts:\n" ++
    String.join ((childHosts hosts g).map (hostEntry "        " "          "))))

/-- The full inventory document text built by `CreateInventoryFile`
(with the unspecified Go map iteration order fixed to first-occurrence
order of the group labels). -/
def inventoryContent (hosts : List HostConfig) : String :=
  "---\nall:\n  hosts:\n" ++
  String.join ((ungroupedHosts hosts).map (hostEntry "    " "      ")) ++
  (if groupLabels hosts = [] then ""
   else "\n  children:\n" ++ groupSection hosts)

/-- The per-host blocks of the document, in emission order: the
ungrouped entries of the top-level `hosts` region followed by the
entries of every `children.G.hosts` region. -/
def inventoryEntries (hosts : List HostConfig) : List String :=
  (ungroupedHosts hosts).map (hostEntry "    " "      ")
  ++ (groupLabels hosts).flatMap
      (fun g => (childHosts hosts g).map (hostEntry "        " "          "))

/-- The multipass branch of `DiscoverInstances`: skip the first output
line unconditionally as a header, split each remaining line on commas,
and for every row with more than two fields whose trimmed second field
is `"Running"`, append the trimmed third field. -/
def parseMultipass (out : String) : List String :=
  ((splitOnChar '\n' out).drop 1).foldl
    (fun acc line =>
      let fs := splitOnChar ',' line
      if fs.length > 2 && (trimS (fs.getD 1 "") == "Running")
      then acc ++ [trimS (fs.getD 2 "")]
      else acc) []

/-- Specification view of one multipass row: the trimmed address field
of a row with more than two fields whose trimmed status field is
`"Running"`. -/
def rowAddr (line : String) : Option String :=
  match splitOnChar ',' line with
  | _ :: status :: addr :: _ =>
    if trimS status == "Running" then some (trimS addr) else none
  | _ => none

/-- Specification view of the whole multipass parse: drop the header
line, then filter-map the rows. -/
def parseMultipassSpec (out : String) : List String :=
  ((splitOnChar '\n' out).drop 1).filterMap rowAddr

/-- The docker branch of `DiscoverInstances`: every line of positive
length contributes its trimmed text. -/
def parseDocker (out : String) : List String :=
  (splitOnChar '\n' out).foldl
    (fun acc line => if line.length > 0 then acc ++ [trimS line] else acc) []

/-- Candidates contributed by enumerator A (`multipass list`); `none`
models a failed invocation (`err != nil`), which contributes nothing. -/
def candidatesA : Option String → List String
  | none => []
  | some out => parseMultipass out

/-- Candidates contributed by enumerator B (`docker ps`); `none` models
a failed invocation, which contributes nothing. -/
def candidatesB : Option String → List String
  | none => []
  | some out => parseDocker out

/-- The selection loop at the end of `DiscoverInstances`: trim the raw
input; the literal `"all"` selects everything, otherwise each
whitespace-separated token that parses as an integer `i` with
`1 ≤ i ≤ len` appends the `i`-th candidate, and every other token is
skipped. -/
def selectInstances (instances : List String) (rawInput : String) : List String :=
  let input := trimS rawInput
  if input == "all" then instances
  else
    (fieldsS input).foldl
      (fun acc tok =>
        match atoi? tok with
        | some i =>
          if 0 < i ∧ i ≤ (instances.length : Int)
          then acc ++ [instances.getD (i.toNat - 1) ""]
          else acc
        | none => acc) []

/-- Specification view of the selection: `"all"` yields the whole list,
otherwise filter-map the typed tokens in typed order, discarding
non-numeric and out-of-range tokens. -/
def selectSpec (instances : List String) (rawInput : String) : List String :=
  let input := trimS rawInput
  if input == "all" then instances
  else
    (fieldsS input).filterMap (fun tok =>
      (atoi? tok).bind (fun i =>
        if 0 < i ∧ i ≤ (instances.length : Int)
        then instances[i.toNat - 1]?
        else none))

/-- `DiscoverInstances` from `internal/inventory`: concatenate the two
enumerators' candidates (A first), return the empty list at once when
there are no candidates, and otherwise apply the user selection. -/
def DiscoverInstances (mp dk : Option String) (rawInput : String) : List String :=
  let instances := candidatesA mp ++ candidatesB dk
  if instances.length = 0 then []
  else selectInstances instances rawInput

/-- Decimal digit character (`'0'` + d). -/
def digitChar (d : Nat) : Char := Char.ofNat (48 + d)

/-- Big-endian decimal digits of `n`; `fuel ≥ n` makes the recursion
structural while computing the same digits as `fmt.Sprintf("%d", n)`. -/
def decCharsAux : Nat → Nat → List Char
  | 0, _ => []
  | fuel + 1, n =>
    if n = 0 then [] else decCharsAux fuel (n / 10) ++ [digitChar (n % 10)]

/-- Models `fmt.Sprintf("%d", n)` for a natural number. -/
def natRepr (n : Nat) : String :=
  if n = 0 then "0" else String.mk (decCharsAux n n)

/-- `fileExists` from `internal/inventory`, over the explicit
file-system model (the list of existing path names). -/
def fileExists (fs : List String) (filename : String) : Bool :=
  fs.contains filename

/-- The candidate path probed at loop counter `k`:
`filepath.Join(directory, fmt.Sprintf("%s%d%s", "inv", k, ".yml"))`. -/
def invName (dir : String) (k : Nat) : String :=
  joinPath dir ("inv" ++ natRepr k ++ ".yml")

/-- The probe loop of `getUniqueInventoryFilename`: while the current
candidate exists, move to the name indexed by the counter and bump the
counter.  The Go loop is unbounded; `fuel` bounds the recursion and is
chosen large enough below that it provably never runs out. -/
def probe (fs : List String) (dir : String) : String → Nat → Nat → String
  | filename, _, 0 => filename
  | filename, counter, fuel + 1 =>
    if fileExists fs filename then
      probe fs dir (invName dir counter) (counter + 1) fuel
    else filename

/-- `getUniqueInventoryFilename` from `internal/inventory`: start from
`inv.yml` (`baseName+ext` in the source) with counter 1; by the
pigeonhole argument below, `fs.length + 2` probes always reach a free
name, so the fueled loop returns exactly what the Go loop returns. -/
def getUniqueInventoryFilename (fs : List String) (dir : String) : String :=
  probe fs dir (joinPath dir "inv.yml") 1 (fs.length + 2)

/-- Decimal value of a digit-character list. -/
def charsVal (cs : List Char) : Nat :=
  cs.foldl (fun acc c => acc * 10 + (c.toNat - 48)) 0

/-- `CommandHistoryEntry` from `cmd/run.go`. -/
structure CommandHistoryEntry where
  inventoryFile : String
  playbooks : List String
  dryRun : Bool
deriving DecidableEq, Repr

/-- The retention step shared by `loadHistory` and
`saveNewHistoryEntry`: keep only the last 5 entries. -/
def keepLast5 (entries : List CommandHistoryEntry) : List CommandHistoryEntry :=
  if entries.length > 5 then entries.drop (entries.length - 5) else entries

/-- `loadHistory` from `cmd/run.go`, with the JSON decoding of one line
abstracted as `parse` (`none` models a failed `json.Unmarshal`): split
the file contents on newlines, trim each line, skip blank and
unparsable lines, and keep only the last 5 entries. -/
def loadHistory (parse : String → Option CommandHistoryEntry)
    (data : String) : List CommandHistoryEntry :=
  keepLast5 ((splitOnChar '\n' data).foldl
    (fun acc line =>
      let t := trimS line
      if t == "" then acc
      else
        match parse t with
        | some e => acc ++ [e]
        | none => acc) [])

/-- `saveNewHistoryEntry` from `cmd/run.go`: append the new entry to
the loaded history (`currentHistory`, empty when loading failed) and
keep only the last 5 entries; the result is what `saveHistory` writes
back to disk. -/
def saveNewHistoryEntry (currentHistory : List CommandHistoryEntry)
    (entry : CommandHistoryEntry) : List CommandHistoryEntry :=
  keepLast5 (currentHistory ++ [entry])

/-- File-system operations performed by `CreateInventoryFile`, in
program order. -/
inductive FsOp where
  | mkdirAll (dir : String)
  | writeFile (path : String) (content : String)
  | rename (src dst : String)
deriving DecidableEq, Repr

/-- `CreateInventoryFile` from `internal/inventory` with its effects
made explicit: `fs` is the list of existing paths (consulted by the
filename probe), and `mkdirOk` / `writeOk` model whether `os.MkdirAll`
and `os.WriteFile` succeed.  Returns the Go result (`.ok path` or
`.error msg`) together with the trace of file-system operations
attempted. -/
def CreateInventoryFile (fs : List String) (dir : String)
    (hosts : List HostConfig) (mkdirOk writeOk : Bool) :
    Except String String × List FsOp :=
  if !mkdirOk then
    (Except.error "error creating directory", [FsOp.mkdirAll dir])
  else
    let inventoryFile := getUniqueInventoryFilename fs dir
    let ops := [FsOp.mkdirAll dir,
      FsOp.writeFile inventoryFile (inventoryContent hosts)]
    if !writeOk then (Except.error "error writing inventory file", ops)
    else (Except.ok inventoryFile, ops)

/-- The write-then-rename discipline the specification describes: no
write ever lands directly on the target path, and the target is
produced by a rename. -/
def atomicReplace (ops : List FsOp) (target : String) : Bool :=
  (ops.any (fun op =>
    match op with
    | FsOp.rename _ d => d == target
    | _ => false)) &&
  !(ops.any (fun op =>
    match op with
    | FsOp.writeFile p _ => p == target
    | _ => false))

theorem partitionHosts_go (hosts : List HostConfig)
    (u : List HostConfig) (m : String → List HostConfig) :
    (hosts.foldl partitionStep (u, m)).1 =
      u ++ hosts.filter (fun h => h.group == "") ∧
    ∀ g, (hosts.foldl partitionStep (u, m)).2 g =
      m g ++ (if g = "" then [] else hosts.filter (fun h => h.group == g)) := by
  induction hosts generalizing u m with
  | nil => simp
  | cons h t ih =>
    by_cases hg : h.group = ""
    · have hstep : partitionStep (u, m) h = (u ++ [h], m) := by
        simp [partitionStep, hg]
      rw [List.foldl_cons, hstep]
      rcases ih (u ++ [h]) m with ⟨ih1, ih2⟩
      refine ⟨?_, ?_⟩
      · rw [ih1]
        simp [List.filter_cons, hg]
      · intro g
        rw [ih2 g]
        rcases eq_or_ne g "" with h0 | h0
        · simp [h0]
        · have hb : (h.group == g) = false := by
            simp only [beq_eq_false_iff_ne, ne_eq]
            exact fun hc => h0 (hg ▸ hc.symm)
          simp [if_neg h0, List.filter_cons, hb]
    · have hstep : partitionStep (u, m) h =
          (u, fun g => if g = h.group then m g ++ [h] else m g) := by
        simp [partitionStep, hg]
      rw [List.foldl_cons, hstep]
      rcases ih u (fun g => if g = h.group then m g ++ [h] else m g) with ⟨ih1, ih2⟩
      refine ⟨?_, ?_⟩
      · rw [ih1]
        have hb : (h.group == "") = false := by
          simp only [beq_eq_false_iff_ne, ne_eq]
          exact hg
        simp [List.filter_cons, hb]
      · intro g
        rw [ih2 g]
        rcases eq_or_ne g "" with h0 | h0
        · have h2 : ¬("" = h.group) := fun hc => hg hc.symm
          simp [h0, h2]
        · rcases eq_or_ne g h.group with h1 | h1
          · have hb : (h.group == g) = true := by
              simp only [beq_iff_eq]
              exact h1.symm
            simp [List.filter_cons, hb, h0, h1, hg, List.append_assoc]
          · have hb : (h.group == g) = false := by
              simp only [beq_eq_false_iff_ne, ne_eq]
              exact fun hc => h1 hc.symm
            simp [List.filter_cons, hb, h0, h1]

theorem ungroupedHosts_eq_filter (hosts : List HostConfig) :
    ungroupedHosts hosts = hosts.filter (fun h => h.group == "") := by
  have := (partitionHosts_go hosts [] (fun _ => [])).1
  simpa [ungroupedHosts, partitionHosts] using this

theorem childHosts_eq_filter (hosts : List HostConfig) (g : String) :
    childHosts hosts g =
      (if g = "" then [] else hosts.filter (fun h => h.group == g)) := by
  have := (partitionHosts_go hosts [] (fun _ => [])).2 g
  simpa [childHosts, partitionHosts] using this

theorem mem_dedupFirst {x : String} {l : List String} :
    x ∈ dedupFirst l ↔ x ∈ l := by
  induction l with
  | nil => simp [dedupFirst]
  | cons y ys ih =>
    simp only [dedupFirst, List.mem_cons, List.mem_filter]
    constructor
    · rintro (rfl | ⟨hx, _⟩)
      · exact .inl rfl
      · exact .inr (ih.mp hx)
    · rintro (rfl | hx)
      · exact .inl rfl
      · rcases eq_or_ne x y with rfl | hne
        · exact .inl rfl
        · exact .inr ⟨ih.mpr hx, by simpa using hne⟩

theorem mem_groupLabels {g : String} {hosts : List HostConfig} :
    g ∈ groupLabels hosts ↔ ∃ h ∈ hosts, h.group = g ∧ g ≠ "" := by
  rw [groupLabels, mem_dedupFirst]
  simp only [List.mem_map, List.mem_filter]
  constructor
  · rintro ⟨h, ⟨hmem, hne⟩, rfl⟩
    refine ⟨h, hmem, rfl, by simpa using hne⟩
  · rintro ⟨h, hmem, rfl, hne⟩
    exact ⟨h, ⟨hmem, by simpa using hne⟩, rfl⟩

/-- **C1.** In the document built by `CreateInventoryFile`, a host
configuration with empty `group` keeps its full multiplicity under the
top-level `hosts` region (`ungroupedHosts`) and never appears under any
`children.G.hosts` region (`childHosts`); a host configuration with a
non-empty group `G` keeps its full multiplicity under `children.G.hosts`
exactly, and appears neither under the top-level `hosts` region nor under
any other group.  Grouping is by exact string equality of the `group`
field, with no normalization. -/
theorem inventory_grouping_partition (hosts : List HostConfig) (h : HostConfig) :
    (h.group = "" →
      (ungroupedHosts hosts).count h = hosts.count h ∧
      ∀ g, h ∉ childHosts hosts g) ∧
    (h.group ≠ "" →
      (childHosts hosts h.group).count h = hosts.count h ∧
      h ∉ ungroupedHosts hosts ∧
      ∀ g, g ≠ h.group → h ∉ childHosts hosts g) := by
  constructor
  · intro hg
    refine ⟨?_, ?_⟩
    · rw [ungroupedHosts_eq_filter]
      exact List.count_filter (by simp [hg])
    · intro g
      rw [childHosts_eq_filter]
      rcases eq_or_ne g "" with h0 | h0
      · simp [h0]
      · rw [if_neg h0]
        intro hmem
        have hgq := (List.mem_filter.mp hmem).2
        rw [beq_iff_eq, hg] at hgq
        exact h0 hgq.symm
  · intro hg
    refine ⟨?_, ?_, ?_⟩
    · rw [childHosts_eq_filter, if_neg hg]
      exact List.count_filter (by simp)
    · rw [ungroupedHosts_eq_filter]
      intro hmem
      have hgq := (List.mem_filter.mp hmem).2
      rw [beq_iff_eq] at hgq
      exact hg hgq
    · intro g hne
      rw [childHosts_eq_filter]
      rcases eq_or_ne g "" with h0 | h0
      · simp [h0]
      · rw [if_neg h0]
        intro hmem
        have hgq := (List.mem_filter.mp hmem).2
        rw [beq_iff_eq] at hgq
        exact hne hgq.symm

theorem inventory_grouping_partition_witness :
    (childHosts
        [⟨"10.0.0.1", "", "ubuntu", "~/.ssh/id_rsa", "22", true⟩,
         ⟨"10.0.0.3", "web", "deployer", "~/.ssh/id_rsa", "2222", true⟩]
        "web").count
      ⟨"10.0.0.3", "web", "deployer", "~/.ssh/id_rsa", "2222", true⟩ =
    ([⟨"10.0.0.1", "", "ubuntu", "~/.ssh/id_rsa", "22", true⟩,
      ⟨"10.0.0.3", "web", "deployer", "~/.ssh/id_rsa", "2222", true⟩] :
        List HostConfig).count
      ⟨"10.0.0.3", "web", "deployer", "~/.ssh/id_rsa", "2222", true⟩ ∧
    (⟨"10.0.0.3", "web", "deployer", "~/.ssh/id_rsa", "2222", true⟩ : HostConfig) ∉
      ungroupedHosts
        [⟨"10.0.0.1", "", "ubuntu", "~/.ssh/id_rsa", "22", true⟩,
         ⟨"10.0.0.3", "web", "deployer", "~/.ssh/id_rsa", "2222", true⟩] :=
  ⟨((inventory_grouping_partition
      [⟨"10.0.0.1", "", "ubuntu", "~/.ssh/id_rsa", "22", true⟩,
       ⟨"10.0.0.3", "web", "deployer", "~/.ssh/id_rsa", "2222", true⟩]
      ⟨"10.0.0.3", "web", "deployer", "~/.ssh/id_rsa", "2222", true⟩).2
      (by decide)).1,
   ((inventory_grouping_partition
      [⟨"10.0.0.1", "", "ubuntu", "~/.ssh/id_rsa", "22", true⟩,
       ⟨"10.0.0.3", "web", "deployer", "~/.ssh/id_rsa", "2222", true⟩]
      ⟨"10.0.0.3", "web", "deployer", "~/.ssh/id_rsa", "2222", true⟩).2
      (by decide)).2.1⟩

/-- **C5.** Per host, `CreateInventoryFile` emits an `ansible_port`
line exactly when `sshPort` is non-empty (carrying `sshPort` as the
value), and an `ansible_become` line exactly when `become` is true, in
which case its value is the literal `true`. -/
theorem host_optional_fields (h : HostConfig) :
    (h.sshPort = "" → ((hostAttrs h).map Prod.fst).count "ansible_port" = 0) ∧
    (h.sshPort ≠ "" → ((hostAttrs h).map Prod.fst).count "ansible_port" = 1 ∧
      ("ansible_port", h.sshPort) ∈ hostAttrs h) ∧
    (h.become = false →
      ((hostAttrs h).map Prod.fst).count "ansible_become" = 0) ∧
    (h.become = true → ((hostAttrs h).map Prod.fst).count "ansible_become" = 1 ∧
      ("ansible_become", "true") ∈ hostAttrs h) := by
  rcases eq_or_ne h.sshPort "" with hp | hp <;>
    cases hb : h.become <;>
      simp [hostAttrs, hp, hb, List.count_cons]

theorem host_optional_fields_witness :
    ((hostAttrs ⟨"10.0.0.3", "web", "deployer", "~/.ssh/id_rsa", "2222", true⟩).map
        Prod.fst).count "ansible_port" = 1 ∧
    ("ansible_become", "true") ∈
      hostAttrs ⟨"10.0.0.3", "web", "deployer", "~/.ssh/id_rsa", "2222", true⟩ ∧
    ((hostAttrs ⟨"10.0.0.2", "", "root", "~/.ssh/id_rsa", "", false⟩).map
        Prod.fst).count "ansible_port" = 0 :=
  ⟨((host_optional_fields
      ⟨"10.0.0.3", "web", "deployer", "~/.ssh/id_rsa", "2222", true⟩).2.1
      (by decide)).1,
   ((host_optional_fields
      ⟨"10.0.0.3", "web", "deployer", "~/.ssh/id_rsa", "2222", true⟩).2.2.2
      (by decide)).2,
   (host_optional_fields
      ⟨"10.0.0.2", "", "root", "~/.ssh/id_rsa", "", false⟩).1 (by decide)⟩

/-- **C10.** Every input host contributes a block to the document
(ungrouped or grouped, only the indentation differs), and that block
always carries an `ansible_user` and an `ansible_ssh_private_key_file`
attribute line — even when `sshUser` or `sshKeyFile` is the empty
string, in which case the line carries an empty value. -/
theorem host_mandatory_fields (hosts : List HostConfig) (h : HostConfig)
    (hmem : h ∈ hosts) :
    ("ansible_user", h.sshUser) ∈ hostAttrs h ∧
    ("ansible_ssh_private_key_file", h.sshKeyFile) ∈ hostAttrs h ∧
    ∃ e ∈ inventoryEntries hosts, ∃ hi ai, e = hostEntry hi ai h := by
  refine ⟨by simp [hostAttrs], by simp [hostAttrs], ?_⟩
  rcases eq_or_ne h.group "" with hg | hg
  · refine ⟨hostEntry "    " "      " h, ?_, "    ", "      ", rfl⟩
    apply List.mem_append_left
    refine List.mem_map_of_mem _ ?_
    rw [ungroupedHosts_eq_filter]
    exact List.mem_filter.mpr ⟨hmem, by simp [hg]⟩
  · refine ⟨hostEntry "        " "          " h, ?_, "        ", "          ", rfl⟩
    apply List.mem_append_right
    rw [List.mem_flatMap]
    refine ⟨h.group, mem_groupLabels.mpr ⟨h, hmem, rfl, hg⟩, ?_⟩
    refine List.mem_map_of_mem _ ?_
    rw [childHosts_eq_filter, if_neg hg]
    exact List.mem_filter.mpr ⟨hmem, by simp⟩

theorem host_mandatory_fields_witness :
    ("ansible_user", "root") ∈
      hostAttrs ⟨"10.0.0.2", "", "root", "", "", false⟩ ∧
    ("ansible_ssh_private_key_file", "") ∈
      hostAttrs ⟨"10.0.0.2", "", "root", "", "", false⟩ ∧
    ∃ e ∈ inventoryEntries [⟨"10.0.0.2", "", "root", "", "", false⟩],
      ∃ hi ai, e = hostEntry hi ai ⟨"10.0.0.2", "", "root", "", "", false⟩ :=
  host_mandatory_fields [⟨"10.0.0.2", "", "root", "", "", false⟩]
    ⟨"10.0.0.2", "", "root", "", "", false⟩ (by decide)

theorem foldl_opt_append {α β : Type} (f : α → Option β) :
    ∀ (l : List α) (acc : List β),
      l.foldl (fun acc x => acc ++ (f x).toList) acc = acc ++ l.filterMap f := by
  intro l
  induction l with
  | nil => intro acc; simp
  | cons x t ih =>
    intro acc
    cases hfx : f x with
    | none => simp [List.filterMap_cons, hfx, ih]
    | some b => simp [List.filterMap_cons, hfx, ih]

theorem parseMultipass_eq_spec (out : String) :
    parseMultipass out = parseMultipassSpec out := by
  rw [parseMultipass, parseMultipassSpec]
  have hstep : ∀ (acc : List String) (line : String),
      (let fs := splitOnChar ',' line
       if fs.length > 2 && (trimS (fs.getD 1 "") == "Running")
       then acc ++ [trimS (fs.getD 2 "")]
       else acc) =
      acc ++ (rowAddr line).toList := by
    intro acc line
    rw [rowAddr]
    cases hfs : splitOnChar ',' line with
    | nil => simp [hfs]
    | cons a t1 =>
      cases t1 with
      | nil => simp
      | cons b t2 =>
        cases t2 with
        | nil => simp
        | cons c t3 =>
          simp only [List.length_cons, List.getD]
          have hlen : t3.length + 1 + 1 + 1 > 2 := by omega
          by_cases hrun : trimS b = "Running"
          · simp [hlen, hrun]
          · simp [hlen, hrun]
  calc ((splitOnChar '\n' out).drop 1).foldl
        (fun acc line =>
          let fs := splitOnChar ',' line
          if fs.length > 2 && (trimS (fs.getD 1 "") == "Running")
          then acc ++ [trimS (fs.getD 2 "")]
          else acc) []
      = ((splitOnChar '\n' out).drop 1).foldl
          (fun acc line => acc ++ (rowAddr line).toList) [] := by
        congr 1
        funext acc line
        exact hstep acc line
    _ = [] ++ ((splitOnChar '\n' out).drop 1).filterMap rowAddr :=
        foldl_opt_append rowAddr _ []
    _ = ((splitOnChar '\n' out).drop 1).filterMap rowAddr := by simp

/-- **C7.** On a successful enumerator A invocation,
`DiscoverInstances` drops the first output line unconditionally as a
header, splits each remaining line on commas, and contributes the
trimmed third field of exactly the rows with more than two fields whose
trimmed second field equals `"Running"`. -/
theorem multipass_header_skip_and_filter (out : String) :
    candidatesA (some out) = parseMultipassSpec out :=
  parseMultipass_eq_spec out

/-- **C8.** Enumerator failures never escalate: a failed invocation
(`none`) contributes zero candidates, the other enumerator's candidates
are still used, and `DiscoverInstances` always produces a plain
(possibly empty) list of strings. -/
theorem discover_degrades_gracefully (mp dk : Option String) (inp : String) :
    candidatesA none = ([] : List String) ∧
    candidatesB none = ([] : List String) ∧
    DiscoverInstances none dk inp =
      (if (candidatesB dk).length = 0 then []
       else selectInstances (candidatesB dk) inp) ∧
    DiscoverInstances mp none inp =
      (if (candidatesA mp).length = 0 then []
       else selectInstances (candidatesA mp) inp) := by
  refine ⟨rfl, rfl, ?_, ?_⟩
  · simp [DiscoverInstances, candidatesA]
  · simp [DiscoverInstances, candidatesB]

theorem selectInstances_eq_spec (instances : List String) (rawInput : String) :
    selectInstances instances rawInput = selectSpec instances rawInput := by
  rw [selectInstances, selectSpec]
  by_cases hall : (trimS rawInput == "all") = true
  · simp [hall]
  · simp only [Bool.not_eq_true] at hall
    simp only [hall, Bool.false_eq_true, if_false]
    have hstep : ∀ (acc : List String) (tok : String),
        (match atoi? tok with
         | some i =>
           if 0 < i ∧ i ≤ (instances.length : Int)
           then acc ++ [instances.getD (i.toNat - 1) ""]
           else acc
         | none => acc) =
        acc ++ ((atoi? tok).bind (fun i =>
          if 0 < i ∧ i ≤ (instances.length : Int)
          then instances[i.toNat - 1]?
          else none)).toList := by
      intro acc tok
      cases hai : atoi? tok with
      | none => simp
      | some i =>
        by_cases hin : 0 < i ∧ i ≤ (instances.length : Int)
        · have hlt : i.toNat - 1 < instances.length := by
            rcases hin with ⟨h1, h2⟩
            have ht1 : 1 ≤ i.toNat := by omega
            have ht2 : i.toNat ≤ instances.length := Int.toNat_le.mpr h2
            omega
          simp [hin, List.getD_eq_getElem?_getD, List.getElem?_eq_getElem hlt]
        · simp [hin]
    calc (fieldsS (trimS rawInput)).foldl
          (fun acc tok =>
            match atoi? tok with
            | some i =>
              if 0 < i ∧ i ≤ (instances.length : Int)
              then acc ++ [instances.getD (i.toNat - 1) ""]
              else acc
            | none => acc) []
        = (fieldsS (trimS rawInput)).foldl
            (fun acc tok => acc ++ ((atoi? tok).bind (fun i =>
              if 0 < i ∧ i ≤ (instances.length : Int)
              then instances[i.toNat - 1]?
              else none)).toList) [] := by
          congr 1
          funext acc tok
          exact hstep acc tok
      _ = [] ++ (fieldsS (trimS rawInput)).filterMap (fun tok =>
            (atoi? tok).bind (fun i =>
              if 0 < i ∧ i ≤ (instances.length : Int)
              then instances[i.toNat - 1]?
              else none)) := foldl_opt_append _ _ []
      _ = (fieldsS (trimS rawInput)).filterMap (fun tok =>
            (atoi? tok).bind (fun i =>
              if 0 < i ∧ i ≤ (instances.length : Int)
              then instances[i.toNat - 1]?
              else none)) := by simp

/-- **C2.** For a non-empty candidate list, the selection accepts the
trimmed literal `"all"` as "return the full list unchanged"; any other
input is split on whitespace and each token parsing as an integer `i`
with `1 ≤ i ≤ length` picks the `i`-th candidate, in the order the
indices were typed, with non-numeric and out-of-range tokens silently
discarded (`selectSpec`). -/
theorem discover_selection_refines (instances : List String)
    (rawInput : String) (hne : instances ≠ []) :
    (trimS rawInput = "all" → selectInstances instances rawInput = instances) ∧
    selectInstances instances rawInput = selectSpec instances rawInput := by
  refine ⟨?_, selectInstances_eq_spec instances rawInput⟩
  intro hall
  rw [selectInstances]
  simp [hall]

theorem discover_selection_refines_witness :
    (["10.0.0.5", "10.0.0.6", "container1", "container2"] : List String) ≠ [] ∧
    selectInstances ["10.0.0.5", "10.0.0.6", "container1", "container2"] "all"
      = ["10.0.0.5", "10.0.0.6", "container1", "container2"] ∧
    selectInstances ["10.0.0.5", "10.0.0.6", "container1", "container2"] "2 4"
      = ["10.0.0.6", "container2"] :=
  ⟨by decide,
   (discover_selection_refines
      ["10.0.0.5", "10.0.0.6", "container1", "container2"] "all"
      (by decide)).1 (by decide),
   ((discover_selection_refines
      ["10.0.0.5", "10.0.0.6", "container1", "container2"] "2 4"
      (by decide)).2).trans (by decide)⟩

/-- **C4.** The pre-selection candidate list of `DiscoverInstances` is
enumerator A's candidates followed by enumerator B's, in that order;
when that concatenation is empty the result is the empty list at once,
independent of the selection input. -/
theorem discover_candidates_concat (mp dk : Option String)
    (inp inp2 : String) :
    (candidatesA mp ++ candidatesB dk = [] →
      DiscoverInstances mp dk inp = [] ∧
      DiscoverInstances mp dk inp = DiscoverInstances mp dk inp2) ∧
    (candidatesA mp ++ candidatesB dk ≠ [] →
      DiscoverInstances mp dk inp =
        selectInstances (candidatesA mp ++ candidatesB dk) inp) := by
  constructor
  · intro h
    constructor <;> simp [DiscoverInstances, h]
  · intro h
    have hlen : (candidatesA mp ++ candidatesB dk).length ≠ 0 :=
      fun hc => h (List.length_eq_zero.mp hc)
    show (if (candidatesA mp ++ candidatesB dk).length = 0 then []
          else selectInstances (candidatesA mp ++ candidatesB dk) inp) =
        selectInstances (candidatesA mp ++ candidatesB dk) inp
    rw [if_neg hlen]

theorem discover_candidates_concat_witness :
    (candidatesA
        (some "Name,State,IPv4\nvm1,Running,10.0.0.5\nvm2,Running,10.0.0.6")
      ++ candidatesB (some "container1\ncontainer2") ≠ []) ∧
    DiscoverInstances
        (some "Name,State,IPv4\nvm1,Running,10.0.0.5\nvm2,Running,10.0.0.6")
        (some "container1\ncontainer2") "all"
      = ["10.0.0.5", "10.0.0.6", "container1", "container2"] ∧
    (candidatesA none ++ candidatesB none = ([] : List String)) ∧
    DiscoverInstances none none "1" = [] :=
  ⟨by decide,
   ((discover_candidates_concat
      (some "Name,State,IPv4\nvm1,Running,10.0.0.5\nvm2,Running,10.0.0.6")
      (some "container1\ncontainer2") "all" "all").2 (by decide)).trans
     (by decide),
   by decide,
   ((discover_candidates_concat none none "1" "x").1 (by decide)).1⟩

theorem digitChar_toNat {d : Nat} (hd : d < 10) :
    (digitChar d).toNat = 48 + d := by
  interval_cases d <;> decide

theorem charsVal_append_digit (cs : List Char) (c : Char) :
    charsVal (cs ++ [c]) = charsVal cs * 10 + (c.toNat - 48) := by
  rw [charsVal, List.foldl_append]
  rfl

theorem charsVal_decCharsAux :
    ∀ fuel n, n ≤ fuel → charsVal (decCharsAux fuel n) = n := by
  intro fuel
  induction fuel with
  | zero =>
    intro n hn
    interval_cases n
    simp [decCharsAux, charsVal]
  | succ fuel ih =>
    intro n hn
    by_cases h0 : n = 0
    · simp [decCharsAux, h0, charsVal]
    · have hdiv : n / 10 ≤ fuel := by
        have := Nat.div_lt_self (Nat.pos_of_ne_zero h0) (by omega : 1 < 10)
        omega
      rw [decCharsAux, if_neg h0, charsVal_append_digit, ih _ hdiv,
        digitChar_toNat (Nat.mod_lt n (by omega))]
      omega

theorem natRepr_injective : Function.Injective natRepr := by
  intro m n h
  by_cases hm : m = 0 <;> by_cases hn : n = 0
  · omega
  · exfalso
    rw [natRepr, if_pos hm, natRepr, if_neg hn] at h
    have hdata := congrArg String.data h
    have h0 : ("0" : String).data = ['0'] := rfl
    rw [h0] at hdata
    have hval := congrArg charsVal hdata
    rw [charsVal_decCharsAux n n le_rfl] at hval
    have : charsVal ['0'] = 0 := by decide
    omega
  · exfalso
    rw [natRepr, if_neg hm, natRepr, if_pos hn] at h
    have hdata := congrArg String.data h
    have h0 : ("0" : String).data = ['0'] := rfl
    rw [h0] at hdata
    have hval := congrArg charsVal hdata
    rw [charsVal_decCharsAux m m le_rfl] at hval
    have : charsVal ['0'] = 0 := by decide
    omega
  · rw [natRepr, if_neg hm, natRepr, if_neg hn] at h
    have hdata := congrArg String.data h
    have hval := congrArg charsVal hdata
    rwa [charsVal_decCharsAux m m le_rfl, charsVal_decCharsAux n n le_rfl]
      at hval

theorem invName_inj (dir : String) : Function.Injective (invName dir) := by
  intro k1 k2 h
  rw [invName, invName, joinPath, joinPath] at h
  have hdata := congrArg String.data h
  simp only [String.data_append] at hdata
  have h1 := List.append_cancel_left hdata
  have h2 := List.append_cancel_right h1
  have h3 := List.append_cancel_left h2
  have : natRepr k1 = natRepr k2 := by
    have := congrArg String.mk h3
    exact this
  exact natRepr_injective this

theorem fileExists_true_iff (fs : List String) (fn : String) :
    fileExists fs fn = true ↔ fn ∈ fs := by
  simp [fileExists]

theorem names_bound (fs : List String) (dir : String) (n : Nat)
    (h : ∀ k, 1 ≤ k → k ≤ n → invName dir k ∈ fs) : n ≤ fs.length := by
  classical
  have hinj : Function.Injective (fun i : Nat => invName dir (i + 1)) := by
    intro a b hab
    have := invName_inj dir hab
    omega
  have hsub : (Finset.range n).image (fun i => invName dir (i + 1)) ⊆
      fs.toFinset := by
    intro x hx
    rw [Finset.mem_image] at hx
    obtain ⟨i, hi, rfl⟩ := hx
    rw [Finset.mem_range] at hi
    exact List.mem_toFinset.mpr (h (i + 1) (by omega) (by omega))
  have hcard := Finset.card_le_card hsub
  rw [Finset.card_image_of_injective _ hinj, Finset.card_range] at hcard
  exact hcard.trans fs.toFinset_card_le

theorem probe_stops (fs : List String) (dir filename : String)
    (counter fuel : Nat) (hfree : fileExists fs filename = false) :
    probe fs dir filename counter (fuel + 1) = filename := by
  simp [probe, hfree]

theorem probe_found (fs : List String) (dir : String) :
    ∀ (fuel j counter : Nat) (filename : String),
      j < fuel →
      fileExists fs filename = true →
      fileExists fs (invName dir (counter + j)) = false →
      (∀ i, i < j → fileExists fs (invName dir (counter + i)) = true) →
      probe fs dir filename counter fuel = invName dir (counter + j) := by
  intro fuel
  induction fuel with
  | zero =>
    intro j counter filename hj
    omega
  | succ fuel ih =>
    intro j counter filename hj hfn hfree hbusy
    simp only [probe, hfn, if_true]
    cases j with
    | zero =>
      have hfree0 : fileExists fs (invName dir counter) = false := by
        simpa using hfree
      cases fuel with
      | zero => simp [probe]
      | succ fuel2 =>
        rw [probe_stops fs dir (invName dir counter) (counter + 1) fuel2 hfree0]
        simp
    | succ j2 =>
      have hbusy0 : fileExists fs (invName dir counter) = true := by
        simpa using hbusy 0 (by omega)
      have hrec := ih j2 (counter + 1) (invName dir counter) (by omega) hbusy0
        (by rw [show counter + 1 + j2 = counter + (j2 + 1) by omega]; exact hfree)
        (fun i hi => by
          rw [show counter + 1 + i = counter + (i + 1) by omega]
          exact hbusy (i + 1) (by omega))
      rw [hrec]
      congr 1
      omega

/-- **C3.** `getUniqueInventoryFilename` returns `outputDirectory/inv.yml`
when no file exists at that path; otherwise it probes `inv1.yml`,
`inv2.yml`, … in increasing order and returns the first probed name at
which no file exists. -/
theorem unique_inventory_filename_probe (fs : List String) (dir : String) :
    (fileExists fs (joinPath dir "inv.yml") = false →
      getUniqueInventoryFilename fs dir = joinPath dir "inv.yml") ∧
    (∀ K, 1 ≤ K →
      fileExists fs (joinPath dir "inv.yml") = true →
      fileExists fs (invName dir K) = false →
      (∀ i, 1 ≤ i → i < K → fileExists fs (invName dir i) = true) →
      getUniqueInventoryFilename fs dir = invName dir K) := by
  constructor
  · intro hfree
    rw [getUniqueInventoryFilename]
    exact probe_stops fs dir (joinPath dir "inv.yml") 1 (fs.length + 1) hfree
  · intro K hK hbase hfree hbusy
    have hbound : K - 1 ≤ fs.length := by
      apply names_bound fs dir (K - 1)
      intro k hk1 hk2
      exact (fileExists_true_iff fs (invName dir k)).mp
        (hbusy k hk1 (by omega))
    rw [getUniqueInventoryFilename]
    have hmain := probe_found fs dir (fs.length + 2) (K - 1) 1
      (joinPath dir "inv.yml") (by omega) hbase
      (by rw [show 1 + (K - 1) = K by omega]; exact hfree)
      (fun i hi => by
        rw [show 1 + i = i + 1 by omega]
        exact hbusy (i + 1) (by omega) (by omega))
    rw [hmain, show 1 + (K - 1) = K by omega]

theorem unique_inventory_filename_probe_witness :
    getUniqueInventoryFilename ["/tmp/inv.yml", "/tmp/inv1.yml"] "/tmp" =
      "/tmp/inv2.yml" :=
  (((unique_inventory_filename_probe
      ["/tmp/inv.yml", "/tmp/inv1.yml"] "/tmp").2 2 (by decide) (by decide)
      (by decide)
      (fun i hi1 hi2 => by
        interval_cases i
        decide)).trans (by decide))

theorem keepLast5_length_le (l : List CommandHistoryEntry) :
    (keepLast5 l).length ≤ 5 := by
  rw [keepLast5]
  by_cases h : l.length > 5
  · rw [if_pos h, List.length_drop]
    omega
  · rw [if_neg h]
    omega

/-- **C9.** The command history holds at most the 5 most recent entries
in append order: `loadHistory` never returns more than 5 entries, and
appending to a history already holding 5 entries via
`saveNewHistoryEntry` drops the oldest entry and keeps the 5 most
recent. -/
theorem history_retention (parse : String → Option CommandHistoryEntry)
    (data : String) (cur : List CommandHistoryEntry)
    (e : CommandHistoryEntry) :
    (loadHistory parse data).length ≤ 5 ∧
    (cur.length = 5 →
      saveNewHistoryEntry cur e = cur.drop 1 ++ [e] ∧
      (saveNewHistoryEntry cur e).length = 5) := by
  constructor
  · exact keepLast5_length_le _
  · intro hlen
    have hlen6 : (cur ++ [e]).length = 6 := by simp [hlen]
    have heq : saveNewHistoryEntry cur e = cur.drop 1 ++ [e] := by
      rw [saveNewHistoryEntry, keepLast5, hlen6, if_pos (by omega)]
      have : (6 : Nat) - 5 = 1 := by omega
      rw [this, List.drop_append_of_le_length (by omega)]
    refine ⟨heq, ?_⟩
    rw [heq]
    simp [hlen]

theorem history_retention_witness :
    (loadHistory (fun _ => none) "").length ≤ 5 ∧
    saveNewHistoryEntry
        [⟨"inv.yml", ["a.yml"], false⟩, ⟨"inv.yml", ["b.yml"], false⟩,
         ⟨"inv.yml", ["c.yml"], false⟩, ⟨"inv.yml", ["d.yml"], false⟩,
         ⟨"inv.yml", ["e.yml"], true⟩]
        ⟨"inv2.yml", ["f.yml"], false⟩ =
      [⟨"inv.yml", ["b.yml"], false⟩, ⟨"inv.yml", ["c.yml"], false⟩,
       ⟨"inv.yml", ["d.yml"], false⟩, ⟨"inv.yml", ["e.yml"], true⟩,
       ⟨"inv2.yml", ["f.yml"], false⟩] :=
  ⟨(history_retention (fun _ => none) "" [] ⟨"", [], false⟩).1,
   (((history_retention (fun _ => none) ""
      [⟨"inv.yml", ["a.yml"], false⟩, ⟨"inv.yml", ["b.yml"], false⟩,
       ⟨"inv.yml", ["c.yml"], false⟩, ⟨"inv.yml", ["d.yml"], false⟩,
       ⟨"inv.yml", ["e.yml"], true⟩]
      ⟨"inv2.yml", ["f.yml"], false⟩).2 (by decide)).1).trans (by decide)⟩

theorem create_inventory_not_atomic_counterexample :
    (CreateInventoryFile [] "/tmp" [] true true).2 =
      [FsOp.mkdirAll "/tmp",
       FsOp.writeFile "/tmp/inv.yml" "---\nall:\n  hosts:\n"] ∧
    atomicReplace (CreateInventoryFile [] "/tmp" [] true true).2
      "/tmp/inv.yml" = false ∧
    (CreateInventoryFile [] "/tmp" [] true true).1 =
      Except.ok "/tmp/inv.yml" :=
  ⟨by decide, by decide, by rfl⟩

/-- **C6** (amended). `CreateInventoryFile` performs a single direct
`WriteFile` of the full document to the computed output path — no
temporary file and no rename — and a write failure is surfaced as an
error to the caller (with no guarantee about partial content at the
target). -/
theorem create_inventory_direct_write (fs : List String) (dir : String)
    (hosts : List HostConfig) (writeOk : Bool) :
    (CreateInventoryFile fs dir hosts true writeOk).2 =
      [FsOp.mkdirAll dir,
       FsOp.writeFile (getUniqueInventoryFilename fs dir)
         (inventoryContent hosts)] ∧
    (writeOk = false →
      (CreateInventoryFile fs dir hosts true writeOk).1 =
        Except.error "error writing inventory file") ∧
    (writeOk = true →
      (CreateInventoryFile fs dir hosts true writeOk).1 =
        Except.ok (getUniqueInventoryFilename fs dir)) := by
  cases writeOk <;> simp [CreateInventoryFile]

theorem create_inventory_direct_write_witness :
    (CreateInventoryFile [] "/tmp" [] true false).1 =
      Except.error "error writing inventory file" :=
  (create_inventory_direct_write [] "/tmp" [] false).2.1 rfl

end Gosible
